import Mathlib

/-!
Verification of the shader-source composition engine of visvis
(`core/shaders.py`): `ShaderCodePart` (canonicalization and section
extraction), `ShaderCode` (part bookkeeping, merge/compile, caching,
uniform handling).

Text is modelled as `List Char` with `'\n'` as the line separator.
Python-level string operations (`split`, `partition`, `splitlines`,
`strip`, ...) are defined to match Python semantics; Python exceptions
are modelled with `Except String`.
-/

deriving instance DecidableEq for Except

/-- Program text, a list of characters. -/
abbrev Str := List Char

/-- Convert a Lean string literal to program text. -/
def str (s : String) : Str := s.data

/-- Whitespace characters, as stripped by Python `strip`/`lstrip`/`rstrip`. -/
def isSpaceChar (c : Char) : Bool := c = ' ' || c = '\t' || c = '\n' || c = '\r'

/-- Python `s.lstrip()`. -/
def lstrip (s : Str) : Str := s.dropWhile isSpaceChar

/-- Python `s.rstrip()`. -/
def rstrip (s : Str) : Str := (s.reverse.dropWhile isSpaceChar).reverse

/-- Python `s.strip()`. -/
def pyStrip (s : Str) : Str := lstrip (rstrip s)

/-- Python `s.count('\n')`. -/
def countNL (s : Str) : Nat := s.countP (fun c => c = '\n')

/-- Python `'\n'.join(lines)`. -/
def joinLines (ls : List Str) : Str := List.intercalate ['\n'] ls

/-- Python `s.splitlines()` (with `'\n'` as the only line separator):
empty string gives no lines, and one trailing newline produces no
trailing empty line. -/
def splitLines (s : Str) : List Str :=
  if s = [] then []
  else if s.getLast? = some '\n' then s.dropLast.splitOn '\n'
  else s.splitOn '\n'

/-- Python `line.startswith(prefixStr)`. -/
def pyStartsWith (s p : Str) : Bool := p.isPrefixOf s

/-- Index of the first occurrence of `sep` in the scanned suffix. -/
def firstOccAux (sep : Str) : Str → Option Nat
  | [] => if sep.isPrefixOf ([] : Str) then some 0 else none
  | c :: t =>
    if sep.isPrefixOf (c :: t) then some 0
    else (firstOccAux sep t).map (· + 1)

/-- Index of the first occurrence of a nonempty `sep` in `s`
(`none` for an empty `sep`, whose search Python refuses). -/
def firstOcc (s sep : Str) : Option Nat :=
  if sep = [] then none else firstOccAux sep s

/-- Fueled worker for Python `s.split(sep)`. -/
def pySplitFuel (sep : Str) : Nat → Str → List Str
  | 0, s => [s]
  | Nat.succ fuel, s =>
    match firstOcc s sep with
    | none => [s]
    | some i => s.take i :: pySplitFuel sep fuel (s.drop (i + sep.length))

/-- Python `s.split(sep)` for a nonempty separator: each occurrence
consumes at least one character, so `s.length + 1` rounds of fuel always
suffice. -/
def pySplit (s sep : Str) : List Str := pySplitFuel sep (s.length + 1) s

/-- Python `s.partition(sep)`: splits at the first occurrence, or
returns `(s, '', '')` when `sep` does not occur. -/
def pyPartition (s sep : Str) : Str × Str × Str :=
  match firstOcc s sep with
  | none => (s, [], [])
  | some i => (s.take i, sep, s.drop (i + sep.length))

/-- Python `sub in s` (substring test; the empty string occurs in
every string). -/
def occursIn (needle text : Str) : Bool :=
  needle = [] || (firstOcc text needle).isSome

/-- Leading-whitespace count of a line: `len(line) - len(line.lstrip())`. -/
def indentOf (l : Str) : Nat := l.length - (lstrip l).length

/-- Prefix a line with `k` spaces, as in `originalIndent*' ' + line`. -/
def padLine (k : Nat) (l : Str) : Str := List.replicate k ' ' ++ l

/-- Python `l.insert(i, a)` (clamps an out-of-range index). -/
def pyInsert (i : Nat) (a : α) (l : List α) : List α := l.take i ++ a :: l.drop i

/-- Python `l.index(a)`: index of the first element equal to `a`. -/
def pyIndexOf [DecidableEq α] (a : α) : List α → Nat
  | [] => 0
  | b :: t => if b = a then 0 else pyIndexOf a t + 1

/-- Python `l.pop(i)` restricted to the resulting list: `IndexError`
when the index is out of range. -/
def popAt (l : List α) (i : Nat) : Except String (List α) :=
  if i < l.length then .ok (l.eraseIdx i) else .error "IndexError: pop index out of range"

/-- `ShaderCodePart`: an immutable named and versioned fragment of GLSL
code, stored in the canonical form produced by `_stripCode`. -/
structure ShaderCodePart where
  name : String
  version : String
  code : Str
deriving DecidableEq, Repr

/-- State of the `_stripCode` scan: collected lines, minimum indentation
seen so far, and whether a non-blank line has been encountered. -/
def stripStep (st : List Str × Nat × Bool) (line1 : Str) : List Str × Nat × Bool :=
  let line2 := lstrip line1
  let line3 := rstrip line2
  let lines1 := if st.2.2 || line3 ≠ [] then st.1 ++ [line1] else st.1
  if line3 ≠ [] then (lines1, min st.2.1 (line1.length - line2.length), true)
  else (lines1, st.2.1, st.2.2)

/-- `ShaderCodePart._stripCode`: strip trailing whitespace, drop leading
blank lines, remove the minimum indentation of the non-blank lines, and
right-trim every line. -/
def stripCode (raw : Str) : Str :=
  let code := rstrip raw
  let st := (splitLines code).foldl stripStep ([], 99999999, false)
  joinLines (st.1.map (fun l => rstrip (l.drop st.2.1)))

/-- The `ShaderCodePart(name, version, code)` constructor: the stored
code is canonicalized once with `_stripCode`. -/
def ShaderCodePart.make (name version : String) (raw : Str) : ShaderCodePart :=
  ⟨name, version, stripCode raw⟩

/-- The two-character needle marker `'>>'`. -/
def marker : Str := ['>', '>']

/-- One line of the needle-collection scan of `CollectSections`.  State:
needles so far (reversed), their raw marker text (reversed), current
line number, line number of the last marker line (initially `-10`). -/
def csLineStep (st : List Str × List Str × Int × Int) (line : Str) :
    List Str × List Str × Int × Int :=
  let linenr := st.2.2.1 + 1
  if pyStartsWith line marker then
    if linenr = st.2.2.2 + 1 then
      match st.1, st.2.1 with
      | s :: srest, r :: rrest =>
        ((s ++ '\n' :: lstrip (line.drop 2)) :: srest,
         (r ++ '\n' :: line) :: rrest, linenr, linenr)
      | _, _ => (st.1, st.2.1, linenr, linenr)
    else (lstrip (line.drop 2) :: st.1, line :: st.2.1, linenr, linenr)
  else (st.1, st.2.1, linenr, st.2.2.2)

/-- One step of the body collection of `CollectSections`:
`code2, dummy, code = code.partition(section_raw); codes.append(code2)`. -/
def collectCodesStep (st : List Str × Str) (raw : Str) : List Str × Str :=
  let t := pyPartition st.2 raw
  (st.1 ++ [t.1], t.2.2)

/-- Body collection of `CollectSections`: successive partitions at the
raw needle text, then `codes.append(code); codes.pop(0)`. -/
def collectCodes (code : Str) (raws : List Str) : List Str :=
  let st := raws.foldl collectCodesStep ([], code)
  (st.1 ++ [st.2]).drop 1

/-- Cleanup of one collected body:
`code = code[1:].rstrip() + '\n'`. -/
def cleanBody (c : Str) : Str := rstrip (c.drop 1) ++ ['\n']

/-- `ShaderCodePart.CollectSections()`: the needles (replace-code) and
the bodies (code to replace them with). -/
def CollectSections (p : ShaderCodePart) : List Str × List Str :=
  let sc := (splitLines p.code).foldl csLineStep ([], [], 0, (-10 : Int))
  let sections := sc.1.reverse
  let raws := sc.2.1.reverse
  (sections, (collectCodes p.code raws).map cleanBody)

/-- Python values that can appear as uniform values (and as the `name`
argument of `SetUniform`).  A zero-argument callable is pure and
deterministic, so it is represented by the value it returns. -/
inductive PyValue where
  | pyInt (n : Int)
  | pyFloat (f : Int)
  | pyStr (s : String)
  | pyList (xs : List PyValue)
  | pyTexture (t : Nat)
  | pyCallable (ret : PyValue)
  | pyNone

mutual

/-- Boolean equality on `PyValue` (the nested list forces a manual
definition). -/
def pvBeq : PyValue → PyValue → Bool
  | .pyInt a, .pyInt b => a = b
  | .pyFloat a, .pyFloat b => a = b
  | .pyStr a, .pyStr b => a = b
  | .pyList a, .pyList b => pvlBeq a b
  | .pyTexture a, .pyTexture b => a = b
  | .pyCallable a, .pyCallable b => pvBeq a b
  | .pyNone, .pyNone => true
  | _, _ => false

/-- Boolean equality on lists of `PyValue`. -/
def pvlBeq : List PyValue → List PyValue → Bool
  | [], [] => true
  | a :: as, b :: bs => pvBeq a b && pvlBeq as bs
  | _, _ => false

end

mutual

theorem pvBeq_iff : ∀ a b, pvBeq a b = true ↔ a = b
  | .pyInt a, .pyInt b => by simp [pvBeq]
  | .pyInt _, .pyFloat _ | .pyInt _, .pyStr _ | .pyInt _, .pyList _
  | .pyInt _, .pyTexture _ | .pyInt _, .pyCallable _ | .pyInt _, .pyNone => by simp [pvBeq]
  | .pyFloat a, .pyFloat b => by simp [pvBeq]
  | .pyFloat _, .pyInt _ | .pyFloat _, .pyStr _ | .pyFloat _, .pyList _
  | .pyFloat _, .pyTexture _ | .pyFloat _, .pyCallable _ | .pyFloat _, .pyNone => by
    simp [pvBeq]
  | .pyStr a, .pyStr b => by simp [pvBeq]
  | .pyStr _, .pyInt _ | .pyStr _, .pyFloat _ | .pyStr _, .pyList _
  | .pyStr _, .pyTexture _ | .pyStr _, .pyCallable _ | .pyStr _, .pyNone => by simp [pvBeq]
  | .pyList a, .pyList b => by
    have h := pvlBeq_iff a b
    simp only [pvBeq, h, PyValue.pyList.injEq]
  | .pyList _, .pyInt _ | .pyList _, .pyFloat _ | .pyList _, .pyStr _
  | .pyList _, .pyTexture _ | .pyList _, .pyCallable _ | .pyList _, .pyNone => by simp [pvBeq]
  | .pyTexture a, .pyTexture b => by simp [pvBeq]
  | .pyTexture _, .pyInt _ | .pyTexture _, .pyFloat _ | .pyTexture _, .pyStr _
  | .pyTexture _, .pyList _ | .pyTexture _, .pyCallable _ | .pyTexture _, .pyNone => by
    simp [pvBeq]
  | .pyCallable a, .pyCallable b => by
    have h := pvBeq_iff a b
    simp only [pvBeq, h, PyValue.pyCallable.injEq]
  | .pyCallable _, .pyInt _ | .pyCallable _, .pyFloat _ | .pyCallable _, .pyStr _
  | .pyCallable _, .pyList _ | .pyCallable _, .pyTexture _ | .pyCallable _, .pyNone => by
    simp [pvBeq]
  | .pyNone, .pyNone => by simp [pvBeq]
  | .pyNone, .pyInt _ | .pyNone, .pyFloat _ | .pyNone, .pyStr _
  | .pyNone, .pyList _ | .pyNone, .pyTexture _ | .pyNone, .pyCallable _ => by simp [pvBeq]

theorem pvlBeq_iff : ∀ as bs, pvlBeq as bs = true ↔ as = bs
  | [], [] => by simp [pvlBeq]
  | [], _ :: _ => by simp [pvlBeq]
  | _ :: _, [] => by simp [pvlBeq]
  | a :: as, b :: bs => by
    have h1 := pvBeq_iff a b
    have h2 := pvlBeq_iff as bs
    simp only [pvlBeq, Bool.and_eq_true, h1, h2, List.cons.injEq]

end

instance : DecidableEq PyValue := fun a b =>
  decidable_of_iff (pvBeq a b = true) (pvBeq_iff a b)

/-- A merge-buffer entry: `(line, partName)`. -/
abbrev BufLine := Str × String

/-- `ShaderCode`: ordered parts, uniform table, cached merge buffer
(`none` means dirty), and the flag read by `_isDirtyForProgram`. -/
structure ShaderCode where
  uniforms : List (String × PyValue)
  parts : List ShaderCodePart
  buffer : Option (List BufLine)
  dirtyForProgramFlag : Bool
deriving DecidableEq

/-- `ShaderCode()`: empty uniform table, no parts, dirty buffer. -/
def ShaderCode.new : ShaderCode :=
  { uniforms := [], parts := [], buffer := none, dirtyForProgramFlag := true }

/-- `ShaderCode.partNames`. -/
def partNames (s : ShaderCode) : List String := s.parts.map (·.name)

/-- `ShaderCode._isDirty`: the code is dirty iff the buffer is absent. -/
def isDirty (s : ShaderCode) : Bool := s.buffer.isNone

/-- Argument of `_IndexOfPart` / `RemovePart` / `HasPart`: a part name
or a part instance. -/
inductive PartRef where
  | byName (name : String)
  | byPart (part : ShaderCodePart)
deriving DecidableEq

/-- `ShaderCode._IndexOfPart`: index of a part given by name or
instance; `ValueError` when not present. -/
def indexOfPart (s : ShaderCode) (ref : PartRef) : Except String Nat :=
  match ref with
  | .byName nm =>
    if nm ∈ partNames s then .ok (pyIndexOf nm (partNames s))
    else .error ("part not present: " ++ nm)
  | .byPart p =>
    if p ∈ s.parts then .ok (pyIndexOf p s.parts)
    else .error "part not present"

/-- Python truthiness of the optional `before`/`after` arguments:
`None` and the empty name are falsy. -/
def truthyOpt : Option PartRef → Bool
  | none => false
  | some (.byName nm) => nm ≠ ""
  | some (.byPart _) => true

/-- Default used to read a `truthyOpt`-guarded optional argument. -/
def refOf (o : Option PartRef) : PartRef := o.getD (.byName "")

/-- `ShaderCode.AddPart(part, before, after)`. -/
def addPart (s : ShaderCode) (p : ShaderCodePart)
    (before after : Option PartRef) : Except String ShaderCode :=
  if p.name ∈ partNames s then
    .error ("part of that name already exists: " ++ p.name)
  else if truthyOpt before && truthyOpt after then
    .error "Can only specify before or after; not both."
  else if truthyOpt before then
    (indexOfPart s (refOf before)).map fun i =>
      { s with parts := pyInsert i p s.parts, buffer := none }
  else if truthyOpt after then
    (indexOfPart s (refOf after)).map fun i =>
      { s with parts := pyInsert (i + 1) p s.parts, buffer := none }
  else
    .ok { s with parts := s.parts ++ [p], buffer := none }

/-- `ShaderCode.ReplacePart(part)`: substitute in place by name. -/
def replacePart (s : ShaderCode) (p : ShaderCodePart) : Except String ShaderCode :=
  (indexOfPart s (.byName p.name)).map fun i =>
    { s with parts := s.parts.set i p, buffer := none }

/-- `ShaderCode.RemovePart(part)`: `False` when the part is not found
(the `ValueError` of `_IndexOfPart` is caught), else remove and dirty. -/
def removePart (s : ShaderCode) (ref : PartRef) : Bool × ShaderCode :=
  match indexOfPart s ref with
  | .error _ => (false, s)
  | .ok i => (true, { s with parts := s.parts.eraseIdx i, buffer := none })

/-- `ShaderCode.HasPart(part)`. -/
def hasPart (s : ShaderCode) (ref : PartRef) : Bool :=
  match ref with
  | .byName nm => nm ∈ partNames s
  | .byPart p => p ∈ s.parts

/-- `ShaderCode.Clear()`. -/
def clearParts (s : ShaderCode) : ShaderCode :=
  { s with parts := [], buffer := none }

/-- `dedentCode` inside `_Compile`: the matching text, each buffer line
stripped of surrounding whitespace, joined with newlines. -/
def dedentCode (lines : List BufLine) : Str :=
  joinLines (lines.map (fun l => pyStrip l.1))

/-- One occurrence of a needle inside `_Compile`:
count newlines before and within the matched span, read the original
indentation, pop the spanned lines, insert the body lines reindented. -/
def occStep (partName : String) (sectionStr body : Str) (splitted : List Str)
    (totalLines : List BufLine) (i : Nat) : Except String (List BufLine) := do
  let nr1 := countNL (splitted.getD i [])
  let nr2 := nr1 + 1 + countNL sectionStr
  match totalLines.get? nr1 with
  | none => .error "IndexError: list index out of range"
  | some bl =>
    let originalIndent := indentOf bl.1
    let tl ← ((List.range' nr1 (nr2 - nr1)).reverse).foldlM popAt totalLines
    .ok ((splitLines body).reverse.foldl
      (fun acc line => pyInsert nr1 (padLine originalIndent line, partName) acc) tl)

/-- One `(section, code)` pair inside `_Compile`: split the matching
text on the needle, skip when absent, else process every occurrence and
recompute the matching text. -/
def doSection (partName : String) (st : List BufLine × Str) (sb : Str × Str) :
    Except String (List BufLine × Str) :=
  if sb.1 = [] then .error "ValueError: empty separator"
  else
    let splitted := pySplit st.2 sb.1
    if splitted.length = 1 then .ok st
    else do
      let tl ← (List.range (splitted.length - 1)).foldlM
        (occStep partName sb.1 sb.2 splitted) st.1
      .ok (tl, dedentCode tl)

/-- One part inside `_Compile`: an empty buffer is seeded verbatim from
the part (the base-template case), otherwise every section of the part
is applied in order. -/
def compileStep (st : List BufLine × Str) (part : ShaderCodePart) :
    Except String (List BufLine × Str) :=
  if st.1 = [] then
    let tl := (splitLines part.code).map (fun l => (l, part.name))
    .ok (tl, dedentCode tl)
  else
    ((CollectSections part).1.zip (CollectSections part).2).foldlM
      (doSection part.name) st

/-- `ShaderCode._Compile` with its running matching text. -/
def compilePair (parts : List ShaderCodePart) : Except String (List BufLine × Str) :=
  parts.foldlM compileStep ([], [])

/-- `ShaderCode._Compile`: the final merge buffer. -/
def compileParts (parts : List ShaderCodePart) : Except String (List BufLine) :=
  (compilePair parts).map (·.1)

/-- `ShaderCode.GetCode()`: compile when dirty, then join the buffer
lines with newlines (reading `_isDirty` sets the program flag when the
code really is dirty). -/
def getCodeE (s : ShaderCode) : Except String (Str × ShaderCode) :=
  match s.buffer with
  | some buf => .ok (joinLines (buf.map (·.1)), s)
  | none =>
    match compileParts s.parts with
    | .error e => .error e
    | .ok buf =>
      .ok (joinLines (buf.map (·.1)),
        { s with buffer := some buf, dirtyForProgramFlag := true })

/-- Update of the uniform table `self._uniforms[name] = value`. -/
def dictSet (d : List (String × PyValue)) (k : String) (v : PyValue) :
    List (String × PyValue) :=
  if d.any (·.1 = k) then d.map (fun kv => if kv.1 = k then (k, v) else kv)
  else d ++ [(k, v)]

/-- `ShaderCode.SetUniform(name, value)`: validate the name and the
value shape, then store the entry in the uniform table. -/
def setUniform (s : ShaderCode) (name value : PyValue) : Except String ShaderCode :=
  match name with
  | .pyStr nm =>
    if nm = "" then .error "Uniform name must be at least 1 character."
    else
      match value with
      | .pyFloat _ => .ok { s with uniforms := dictSet s.uniforms nm value }
      | .pyInt _ => .ok { s with uniforms := dictSet s.uniforms nm value }
      | .pyList _ => .ok { s with uniforms := dictSet s.uniforms nm value }
      | .pyTexture _ => .ok { s with uniforms := dictSet s.uniforms nm value }
      | .pyCallable _ => .ok { s with uniforms := dictSet s.uniforms nm value }
      | _ => .error "Uniform value for ShaderCode must be a list/tuple."
  | _ => .error "Uniform name for ShaderCode must be a string."

/-- Calls made on the wrapped GLSL program and on texture objects. -/
inductive GlEvent where
  | setf (name : String) (vals : List PyValue)
  | seti (name : String) (vals : List PyValue)
  | enableTex (tex : Nat) (unit : Nat)
  | disableTex (tex : Nat)
deriving DecidableEq

/-- The inner `setuniform(name, value)` of `_ApplyUniforms`: dispatch on
the value shape, enable textures at the current texture unit, resolve
callables recursively.  Returns the emitted events and the next free
texture unit. -/
def applyOne (name : String) : PyValue → Nat → Except String (List GlEvent × Nat)
  | .pyFloat f, tid => .ok ([.setf name [.pyFloat f]], tid)
  | .pyInt n, tid => .ok ([.seti name [.pyInt n]], tid)
  | .pyList [], _ => .error "IndexError: list index out of range"
  | .pyList (v :: vs), tid =>
    match v with
    | .pyFloat _ => .ok ([.setf name (v :: vs)], tid)
    | .pyInt _ => .ok ([.seti name (v :: vs)], tid)
    | _ => .ok ([], tid)
  | .pyTexture t, tid => .ok ([.enableTex t tid, .seti name [.pyInt (Int.ofNat tid)]], tid + 1)
  | .pyCallable r, tid => applyOne name r tid
  | .pyStr _, _ => .error "Invalid uniform value"
  | .pyNone, _ => .error "Invalid uniform value"

/-- `_ApplyUniforms` starting from a given first texture unit: the
uniform entries are processed in table order, events concatenated. -/
def applyUniformsFrom (tid : Nat) : List (String × PyValue) →
    Except String (List GlEvent × Nat)
  | [] => .ok ([], tid)
  | nv :: rest => do
    let r ← applyOne nv.1 nv.2 tid
    let r2 ← applyUniformsFrom r.2 rest
    .ok (r.1 ++ r2.1, r2.2)

/-- `ShaderCode._ApplyUniforms(program)`: apply every uniform, with
texture units assigned from 1 upwards. -/
def applyUniforms (us : List (String × PyValue)) : Except String (List GlEvent × Nat) :=
  applyUniformsFrom 1 us

/-- The inner `setuniform(value)` of `_DisableUniformTextures`. -/
def disableOne : PyValue → List GlEvent
  | .pyTexture t => [.disableTex t]
  | .pyCallable r => disableOne r
  | _ => []

/-- `ShaderCode._DisableUniformTextures()`. -/
def disableUniformTextures : List (String × PyValue) → List GlEvent
  | [] => []
  | nv :: rest => disableOne nv.2 ++ disableUniformTextures rest

/-- Drop one trailing newline, as `splitlines` does. -/
def dropTrailNL (s : Str) : Str :=
  if s.getLast? = some '\n' then s.dropLast else s

/-- A blank line: nothing left after stripping whitespace. -/
def blankLine (l : Str) : Bool := rstrip (lstrip l) = []

/-- One line of the section scan exactly as claim C2 words it: a marker
line extends or starts the needle being built, any other line belongs to
the body of the section being built.  State: `(needle, bodyLines)` pairs
(reversed) and whether the previous line was a marker line. -/
def specStep (st : List (Str × List Str) × Bool) (line : Str) :
    List (Str × List Str) × Bool :=
  if pyStartsWith line marker then
    if st.2 then
      match st.1 with
      | (n, b) :: rest => ((n ++ '\n' :: lstrip (line.drop 2), b) :: rest, true)
      | [] => (st.1, true)
    else ((lstrip (line.drop 2), []) :: st.1, true)
  else
    match st.1 with
    | (n, b) :: rest => ((n, b ++ [line]) :: rest, false)
    | [] => ([], false)

/-- Section extraction as claim C2 words it: needles from a line scan,
each body the in-between line group, trimmed of one leading newline
(already absent in the line view) and of trailing whitespace, with a
single trailing newline appended. -/
def collectSectionsSpec (p : ShaderCodePart) : List Str × List Str :=
  let pairs := ((splitLines p.code).foldl specStep ([], false)).1.reverse
  (pairs.map (·.1), pairs.map (fun pr => rstrip (joinLines pr.2) ++ ['\n']))

/-- One line of a clean needle scan: like `specStep` but collecting the
raw marker text of each needle group instead of bodies. -/
def needleStep (st : List (Str × Str) × Bool) (line : Str) :
    List (Str × Str) × Bool :=
  if pyStartsWith line marker then
    if st.2 then
      match st.1 with
      | (n, r) :: rest =>
        ((n ++ '\n' :: lstrip (line.drop 2), r ++ '\n' :: line) :: rest, true)
      | [] => (st.1, true)
    else ((lstrip (line.drop 2), line) :: st.1, true)
  else (st.1, false)

/-- The needle groups of a canonical source: for each maximal run of
marker lines, the needle (marker stripped, left-trimmed, joined with
newline) and the raw marker text of the run. -/
def needleGroups (c : Str) : List (Str × Str) :=
  ((splitLines c).foldl needleStep ([], false)).1.reverse

/-- The pieces of `c` delimited by successive first occurrences of the
given separators (`partition` semantics at every step). -/
def gapsFrom : Str → List Str → List Str
  | c, [] => [c]
  | c, r :: rs => (pyPartition c r).1 :: gapsFrom (pyPartition c r).2.2 rs

/-- The section bodies obtained by successively splitting the source at
the first occurrence of each raw needle text and cleaning each piece. -/
def bodiesByPartition (c : Str) (raws : List Str) : List Str :=
  match raws with
  | [] => []
  | r :: rs => (gapsFrom (pyPartition c r).2.2 rs).map cleanBody

/-- Is the value an integer? -/
def isIntV : PyValue → Bool
  | .pyInt _ => true
  | _ => false

/-- Is the value a float? -/
def isFloatV : PyValue → Bool
  | .pyFloat _ => true
  | _ => false

/-- The permitted uniform-value shapes exactly as claim C8 words them:
a number, a numeric sequence of at most 4 homogeneously integer or
floating elements, a texture-like resource, or a zero-argument producer
of any of these. -/
def permittedSpec : PyValue → Bool
  | .pyInt _ => true
  | .pyFloat _ => true
  | .pyList xs => xs.length ≤ 4 && (xs.all isIntV || xs.all isFloatV)
  | .pyTexture _ => true
  | .pyCallable r => permittedSpec r
  | .pyStr _ => false
  | .pyNone => false

/-- The value shapes `SetUniform` actually accepts: a number, any
list/tuple, a texture, or a callable. -/
def acceptedShape : PyValue → Bool
  | .pyInt _ => true
  | .pyFloat _ => true
  | .pyList _ => true
  | .pyTexture _ => true
  | .pyCallable _ => true
  | .pyStr _ => false
  | .pyNone => false

/-- The texture a uniform value resolves to after recursively invoking
producers, if any. -/
def resolveTex : PyValue → Option Nat
  | .pyTexture t => some t
  | .pyCallable r => resolveTex r
  | _ => none

/-- Resolve a producer value by (recursive) invocation. -/
def resolveValue : PyValue → PyValue
  | .pyCallable r => resolveValue r
  | v => v

/-- The `(texture, unit)` pairs of the enable-texture events of a trace. -/
def enabledPairs (tr : List GlEvent) : List (Nat × Nat) :=
  tr.filterMap fun e =>
    match e with
    | .enableTex t u => some (t, u)
    | _ => none

/-- The textures disabled by a trace. -/
def disabledTexs (tr : List GlEvent) : List Nat :=
  tr.filterMap fun e =>
    match e with
    | .disableTex t => some t
    | _ => none

/-- The textures a uniform table resolves to, in table order. -/
def texsOf (us : List (String × PyValue)) : List Nat :=
  us.filterMap fun nv => resolveTex nv.2

/-- Is the value a Python string? -/
def isPyStr : PyValue → Bool
  | .pyStr _ => true
  | _ => false

/-- Fixture: a one-line part named `a`. -/
def fixturePartA : ShaderCodePart := .make "a" "" (str "x;")

/-- Fixture: a one-line part named `b`. -/
def fixturePartB : ShaderCodePart := .make "b" "" (str "y;")

/-- Fixture: a one-line part named `c`. -/
def fixturePartC : ShaderCodePart := .make "c" "" (str "z;")

/-- Fixture: a composer holding exactly `fixturePartA`, not yet compiled. -/
def fixtureOneA : ShaderCode :=
  { uniforms := [], parts := [fixturePartA], buffer := none, dirtyForProgramFlag := true }

/-- Fixture: `fixtureOneA` after its buffer has been compiled. -/
def fixtureOneAC : ShaderCode :=
  { uniforms := [], parts := [fixturePartA], buffer := some [(str "x;", "a")],
    dirtyForProgramFlag := true }

/-- Fixture: a composer holding `fixturePartA` then `fixturePartB`. -/
def fixtureTwoAB : ShaderCode :=
  { uniforms := [], parts := [fixturePartA, fixturePartB], buffer := none,
    dirtyForProgramFlag := true }

/-- C1: the claim states that during Compile each occurrence of a needle
is located by counting newlines in the matching text preceding the
matched span and that the matching text is recomputed before the next
occurrence.  The code instead counts newlines only in the split segment
between consecutive occurrences and refreshes the matching text only
after all occurrences of a section, so a needle occurring twice has its
second occurrence mislocated: here the second `X;` of the base is left
in place and the unrelated line `c;` is replaced instead.  The claim
describes the intended behavior (the design notes flag exactly this
multiple-occurrence handling as incorrect), so this is a code bug. -/
theorem C1_second_occurrence_misplaced :
    compileParts [ShaderCodePart.make "A" "" (str "a;\nX;\nc;\nX;\nd;"),
        ShaderCodePart.make "B" "" (str ">>X;\nY;")] =
      .ok [(str "a;", "A"), (str "Y;", "B"), (str "Y;", "B"),
           (str "X;", "A"), (str "d;", "A")] ∧
    joinLines [str "a;", str "Y;", str "Y;", str "X;", str "d;"] ≠
      str "a;\nY;\nc;\nY;\nd;" := by
  decide

/-- C5: `AddPart` raises when the new part's name is already present,
and raises when both `before` and `after` are given (truthy); in this
pure embedding a failed call returns only the error, so the part list of
the composer is unchanged by construction. -/
theorem C5_addPart_error_cases (s : ShaderCode) (p : ShaderCodePart)
    (before after : Option PartRef) :
    (p.name ∈ partNames s →
      addPart s p before after =
        .error ("part of that name already exists: " ++ p.name)) ∧
    (p.name ∉ partNames s → truthyOpt before = true → truthyOpt after = true →
      addPart s p before after =
        .error "Can only specify before or after; not both.") := by
  constructor
  · intro h
    simp [addPart, h]
  · intro h hb ha
    simp [addPart, h, hb, ha]

/-- Witness for C5 at concrete inputs. -/
theorem C5_addPart_error_cases_witness :
    addPart fixtureOneA fixturePartA none none =
      .error "part of that name already exists: a" ∧
    addPart fixtureOneA fixturePartB (some (.byName "a")) (some (.byName "a")) =
      .error "Can only specify before or after; not both." := by
  refine ⟨?_, ?_⟩
  · have h := (C5_addPart_error_cases fixtureOneA fixturePartA none none).1 (by decide)
    exact h
  · have h := (C5_addPart_error_cases fixtureOneA fixturePartB
      (some (.byName "a")) (some (.byName "a"))).2 (by decide) (by decide) (by decide)
    exact h

/-- C6: `RemovePart` returns a boolean and never raises: when the part
is not found it returns `False` with the composer (part list, buffer,
uniform table) untouched, and when found it returns `True`, removes the
part at its index and marks the buffer dirty. -/
theorem C6_removePart_soft (s : ShaderCode) (ref : PartRef) :
    (hasPart s ref = false → removePart s ref = (false, s)) ∧
    (hasPart s ref = true →
      ∃ i, indexOfPart s ref = .ok i ∧
        removePart s ref = (true, { s with parts := s.parts.eraseIdx i, buffer := none })) := by
  constructor
  · intro h
    cases ref with
    | byName nm =>
      have h' : nm ∉ partNames s := by
        simpa [hasPart] using h
      simp [removePart, indexOfPart, h']
    | byPart p =>
      have h' : p ∉ s.parts := by
        simpa [hasPart] using h
      simp [removePart, indexOfPart, h']
  · intro h
    cases ref with
    | byName nm =>
      have h' : nm ∈ partNames s := by
        simpa [hasPart] using h
      exact ⟨pyIndexOf nm (partNames s), by simp [indexOfPart, h'], by
        simp [removePart, indexOfPart, h']⟩
    | byPart p =>
      have h' : p ∈ s.parts := by
        simpa [hasPart] using h
      exact ⟨pyIndexOf p s.parts, by simp [indexOfPart, h'], by
        simp [removePart, indexOfPart, h']⟩

/-- Witness for C6 at concrete inputs: removing an absent name is a pure
no-op returning `False`, removing a present one returns `True`. -/
theorem C6_removePart_soft_witness :
    removePart fixtureOneA (.byName "zz") = (false, fixtureOneA) ∧
    ∃ i, indexOfPart fixtureOneA (.byName "a") = .ok i ∧
      removePart fixtureOneA (.byName "a") = (true, { fixtureOneA with parts := fixtureOneA.parts.eraseIdx i, buffer := none }) := by
  refine ⟨(C6_removePart_soft fixtureOneA (.byName "zz")).1 (by decide),
    (C6_removePart_soft fixtureOneA (.byName "a")).2 (by decide)⟩

/-- C7: two consecutive `GetCode()` calls with no structural mutation in
between return the identical string and identical state (so the merge is
not re-run), the dirty state stays false after the first call, and it
becomes true again exactly at the next successful add, replace, remove
or clear. -/
theorem C7_getCode_idempotent_caching (s : ShaderCode) (c1 : Str) (s1 : ShaderCode)
    (hg : getCodeE s = .ok (c1, s1)) :
    getCodeE s1 = .ok (c1, s1) ∧ isDirty s1 = false ∧
    (∀ p b a s2, addPart s1 p b a = .ok s2 → isDirty s2 = true) ∧
    (∀ p s2, replacePart s1 p = .ok s2 → isDirty s2 = true) ∧
    (∀ ref, (removePart s1 ref).1 = true → isDirty (removePart s1 ref).2 = true) ∧
    isDirty (clearParts s1) = true := by
  have hbuf : ∃ buf, s1.buffer = some buf ∧ c1 = joinLines (buf.map (·.1)) := by
    unfold getCodeE at hg
    cases hb : s.buffer with
    | some buf =>
      rw [hb] at hg
      injection hg with h
      injection h with h1 h2
      exact ⟨buf, by rw [← h2, hb], h1.symm⟩
    | none =>
      rw [hb] at hg
      cases hc : compileParts s.parts with
      | error e => rw [hc] at hg; exact absurd hg (by simp)
      | ok buf =>
        rw [hc] at hg
        injection hg with h
        injection h with h1 h2
        exact ⟨buf, by rw [← h2], h1.symm⟩
  obtain ⟨buf, hb1, hc1⟩ := hbuf
  refine ⟨?_, ?_, ?_, ?_, ?_, ?_⟩
  · unfold getCodeE
    rw [hb1, hc1]
  · simp [isDirty, hb1]
  · intro p b a s2 h2
    unfold addPart at h2
    by_cases hdup : p.name ∈ partNames s1
    · simp [hdup] at h2
    · simp only [hdup, if_false, if_neg] at h2
      by_cases hba : (truthyOpt b && truthyOpt a) = true
      · simp [hba] at h2
      · simp only [hba, if_false] at h2
        by_cases hbb : truthyOpt b = true
        · simp only [hbb, if_true] at h2
          cases hi : indexOfPart s1 (refOf b) with
          | error e => simp [hi, Except.map] at h2
          | ok i =>
            simp only [hi, Except.map] at h2
            injection h2 with h2
            simp [isDirty, ← h2]
        · simp only [hbb, if_false] at h2
          by_cases haa : truthyOpt a = true
          · simp only [haa, if_true] at h2
            cases hi : indexOfPart s1 (refOf a) with
            | error e => simp [hi, Except.map] at h2
            | ok i =>
              simp only [hi, Except.map] at h2
              injection h2 with h2
              simp [isDirty, ← h2]
          · simp only [haa, if_false] at h2
            injection h2 with h2
            simp [isDirty, ← h2]
  · intro p s2 h2
    unfold replacePart at h2
    cases hi : indexOfPart s1 (.byName p.name) with
    | error e => simp [hi, Except.map] at h2
    | ok i =>
      simp only [hi, Except.map] at h2
      injection h2 with h2
      simp [isDirty, ← h2]
  · intro ref h2
    unfold removePart at h2 ⊢
    cases hi : indexOfPart s1 ref with
    | error e => simp [hi] at h2
    | ok i => simp [hi, isDirty]
  · simp [isDirty, clearParts]

/-- Witness for C7 at a concrete composer: the binder-free parts of the
conclusion at `fixtureOneA`, whose first `GetCode()` yields `x;`. -/
theorem C7_getCode_idempotent_caching_witness :
    getCodeE fixtureOneAC = .ok (str "x;", fixtureOneAC) ∧
    isDirty fixtureOneAC = false ∧
    isDirty (clearParts fixtureOneAC) = true := by
  have h := C7_getCode_idempotent_caching fixtureOneA (str "x;") fixtureOneAC (by decide)
  exact ⟨h.1, h.2.1, h.2.2.2.2.2⟩

/-- C10: a falsy position argument to `AddPart` (the empty string) is
treated as absent: `before=''` alone appends at the end without raising,
and `before=''` together with a real `after` does not raise the
conflicting-arguments error but inserts after that part. -/
theorem C10_addPart_falsy_position (s : ShaderCode) (p : ShaderCodePart)
    (hname : p.name ∉ partNames s) :
    addPart s p (some (.byName "")) none =
      .ok { s with parts := s.parts ++ [p], buffer := none } ∧
    (∀ yref i, truthyOpt (some yref) = true → indexOfPart s yref = .ok i →
      addPart s p (some (.byName "")) (some yref) =
        .ok { s with parts := pyInsert (i + 1) p s.parts, buffer := none }) := by
  constructor
  · simp [addPart, hname, truthyOpt]
  · intro yref i hy hi
    cases yref with
    | byName nm =>
      have hnm : nm ≠ "" := by simpa [truthyOpt] using hy
      simp [addPart, hname, truthyOpt, hnm, refOf, hi, Except.map]
    | byPart q =>
      simp [addPart, hname, truthyOpt, refOf, hi, Except.map]

/-- Witness for C10 at concrete inputs: `before=''` appends part `c`
after `[a, b]`, and `before=''` with `after='a'` inserts `c` at
position 1. -/
theorem C10_addPart_falsy_position_witness :
    addPart fixtureTwoAB fixturePartC (some (.byName "")) none =
      .ok { fixtureTwoAB with parts := fixtureTwoAB.parts ++ [fixturePartC], buffer := none } ∧
    addPart fixtureTwoAB fixturePartC (some (.byName "")) (some (.byName "a")) =
      .ok { fixtureTwoAB with parts := pyInsert 1 fixturePartC fixtureTwoAB.parts, buffer := none } := by
  have h := C10_addPart_falsy_position fixtureTwoAB fixturePartC (by decide)
  exact ⟨h.1, h.2 (.byName "a") 0 (by decide) (by decide)⟩

/-- C8 counterexample: the claim says `SetUniform` raises for any value
outside the permitted shapes, which exclude numeric sequences longer
than 4 elements; but the code accepts any list or tuple without
checking its length or element types, so a 5-element list is stored
successfully. -/
theorem C8_counterexample_long_sequence_accepted :
    permittedSpec (.pyList [.pyInt 1, .pyInt 2, .pyInt 3, .pyInt 4, .pyInt 5]) = false ∧
    setUniform ShaderCode.new (.pyStr "u")
        (.pyList [.pyInt 1, .pyInt 2, .pyInt 3, .pyInt 4, .pyInt 5]) =
      .ok { ShaderCode.new with
        uniforms := [("u", .pyList [.pyInt 1, .pyInt 2, .pyInt 3, .pyInt 4, .pyInt 5])] } := by
  constructor
  · decide
  · decide

/-- C8 (amended): `SetUniform` raises for a non-string or empty name and
for a value that is neither a number, nor a list/tuple (of any length
and element types, unchecked), nor a texture, nor a callable; on success
it only stores the entry in the uniform table, leaving parts, buffer and
dirty flag untouched. -/
theorem C8_setUniform_validation (s : ShaderCode) (name value : PyValue) :
    (∀ nm, name = .pyStr nm → nm ≠ "" → acceptedShape value = true →
      setUniform s name value =
        .ok { s with uniforms := dictSet s.uniforms nm value }) ∧
    (isPyStr name = false → ∃ e, setUniform s name value = .error e) ∧
    (name = .pyStr "" → ∃ e, setUniform s name value = .error e) ∧
    (acceptedShape value = false → ∃ e, setUniform s name value = .error e) := by
  refine ⟨?_, ?_, ?_, ?_⟩
  · rintro nm rfl hnm hv
    cases value <;> simp_all [setUniform, acceptedShape]
  · intro h
    cases name <;> simp_all [setUniform, isPyStr]
  · rintro rfl
    exact ⟨"Uniform name must be at least 1 character.", by simp [setUniform]⟩
  · intro hv
    cases name with
    | pyStr nm =>
      by_cases hnm : nm = ""
      · subst hnm
        exact ⟨"Uniform name must be at least 1 character.", by simp [setUniform]⟩
      · cases value <;> simp_all [acceptedShape, setUniform]
    | pyInt n => exact ⟨"Uniform name for ShaderCode must be a string.", by simp [setUniform]⟩
    | pyFloat f => exact ⟨"Uniform name for ShaderCode must be a string.", by simp [setUniform]⟩
    | pyList xs => exact ⟨"Uniform name for ShaderCode must be a string.", by simp [setUniform]⟩
    | pyTexture t => exact ⟨"Uniform name for ShaderCode must be a string.", by simp [setUniform]⟩
    | pyCallable r => exact ⟨"Uniform name for ShaderCode must be a string.", by simp [setUniform]⟩
    | pyNone => exact ⟨"Uniform name for ShaderCode must be a string.", by simp [setUniform]⟩

/-- Witness for C8 (amended) at concrete inputs: a float value is
stored, a non-string name, an empty name and a `None` value are
rejected. -/
theorem C8_setUniform_validation_witness :
    setUniform ShaderCode.new (.pyStr "k") (.pyFloat 2) =
      .ok { ShaderCode.new with uniforms := dictSet [] "k" (.pyFloat 2) } ∧
    (∃ e, setUniform ShaderCode.new (.pyInt 3) (.pyFloat 2) = .error e) ∧
    (∃ e, setUniform ShaderCode.new (.pyStr "") (.pyFloat 2) = .error e) ∧
    (∃ e, setUniform ShaderCode.new (.pyStr "k") .pyNone = .error e) := by
  refine ⟨?_, ?_, ?_, ?_⟩
  · exact (C8_setUniform_validation ShaderCode.new (.pyStr "k") (.pyFloat 2)).1
      "k" rfl (by decide) (by decide)
  · exact (C8_setUniform_validation ShaderCode.new (.pyInt 3) (.pyFloat 2)).2.1 (by decide)
  · exact (C8_setUniform_validation ShaderCode.new (.pyStr "") (.pyFloat 2)).2.2.1 rfl
  · exact (C8_setUniform_validation ShaderCode.new (.pyStr "k") .pyNone).2.2.2 (by decide)

/-- Reduction of a successful `Except` bind. -/
theorem except_bind_ok (a : α) (f : α → Except String β) :
    (Except.ok a >>= f) = f a := rfl

/-- Reduction of a failed `Except` bind. -/
theorem except_bind_err (e : String) (f : α → Except String β) :
    ((Except.error e : Except String α) >>= f) = Except.error e := rfl

/-- `enabledPairs` distributes over trace concatenation. -/
theorem enabledPairs_append (a b : List GlEvent) :
    enabledPairs (a ++ b) = enabledPairs a ++ enabledPairs b := by
  simp [enabledPairs]

/-- `disabledTexs` distributes over trace concatenation. -/
theorem disabledTexs_append (a b : List GlEvent) :
    disabledTexs (a ++ b) = disabledTexs a ++ disabledTexs b := by
  simp [disabledTexs]

/-- What one `setuniform` dispatch contributes in terms of textures: an
enable event at the current unit exactly when the value resolves to a
texture, in which case the unit counter advances. -/
theorem applyOne_texspec (name : String) :
    ∀ (v : PyValue) (tid : Nat) (ev : List GlEvent) (tid2 : Nat),
      applyOne name v tid = .ok (ev, tid2) →
      (enabledPairs ev, tid2) = (match resolveTex v with
        | some t => ([(t, tid)], tid + 1)
        | none => ([], tid))
  | .pyInt n, tid, ev, tid2, h => by
    simp only [applyOne, Except.ok.injEq, Prod.mk.injEq] at h
    obtain ⟨h1, h2⟩ := h
    subst h1; subst h2
    simp [enabledPairs, resolveTex]
  | .pyFloat f, tid, ev, tid2, h => by
    simp only [applyOne, Except.ok.injEq, Prod.mk.injEq] at h
    obtain ⟨h1, h2⟩ := h
    subst h1; subst h2
    simp [enabledPairs, resolveTex]
  | .pyStr nm, tid, ev, tid2, h => by simp [applyOne] at h
  | .pyNone, tid, ev, tid2, h => by simp [applyOne] at h
  | .pyList [], tid, ev, tid2, h => by simp [applyOne] at h
  | .pyList (v :: vs), tid, ev, tid2, h => by
    cases v <;>
      (simp only [applyOne, Except.ok.injEq, Prod.mk.injEq] at h
       obtain ⟨h1, h2⟩ := h
       subst h1; subst h2
       simp [enabledPairs, resolveTex])
  | .pyTexture t, tid, ev, tid2, h => by
    simp only [applyOne, Except.ok.injEq, Prod.mk.injEq] at h
    obtain ⟨h1, h2⟩ := h
    subst h1; subst h2
    simp [enabledPairs, resolveTex]
  | .pyCallable r, tid, ev, tid2, h => by
    have hr : applyOne name r tid = .ok (ev, tid2) := h
    have := applyOne_texspec name r tid ev tid2 hr
    simpa [resolveTex] using this

/-- The uniform-application pass enables the resolved textures of the
table in order, at consecutive units starting from the given one. -/
theorem applyFrom_texspec :
    ∀ (us : List (String × PyValue)) (tid : Nat) (tr : List GlEvent) (tid2 : Nat),
      applyUniformsFrom tid us = .ok (tr, tid2) →
      enabledPairs tr = (texsOf us).zip (List.range' tid (texsOf us).length) ∧
      tid2 = tid + (texsOf us).length
  | [], tid, tr, tid2, h => by
    simp only [applyUniformsFrom, Except.ok.injEq, Prod.mk.injEq] at h
    obtain ⟨h1, h2⟩ := h
    subst h1; subst h2
    simp [enabledPairs, texsOf]
  | nv :: rest, tid, tr, tid2, h => by
    rw [applyUniformsFrom] at h
    cases h1 : applyOne nv.1 nv.2 tid with
    | error e => rw [h1] at h; simp [except_bind_err] at h
    | ok r =>
      rw [h1] at h
      simp only [except_bind_ok] at h
      cases h2 : applyUniformsFrom r.2 rest with
      | error e => rw [h2] at h; simp [except_bind_err] at h
      | ok r2 =>
        rw [h2] at h
        simp only [except_bind_ok, Except.ok.injEq, Prod.mk.injEq] at h
        obtain ⟨htr1, htr2⟩ := h
        have hone := applyOne_texspec nv.1 nv.2 tid r.1 r.2 (by rw [← h1])
        cases hres : resolveTex nv.2 with
        | some t =>
          rw [hres] at hone
          have he1 : enabledPairs r.1 = [(t, tid)] := congrArg Prod.fst hone
          have ht1 : r.2 = tid + 1 := congrArg Prod.snd hone
          rw [ht1] at h2
          have hrest := applyFrom_texspec rest (tid + 1) r2.1 r2.2 h2
          have htex : texsOf (nv :: rest) = t :: texsOf rest := by
            simp [texsOf, List.filterMap_cons, hres]
          constructor
          · rw [← htr1, enabledPairs_append, he1, hrest.1, htex,
              List.length_cons, List.range'_succ, List.zip_cons_cons]
            rfl
          · rw [← htr2, hrest.2, htex]
            simp [Nat.add_comm, Nat.add_assoc, Nat.add_left_comm]
        | none =>
          rw [hres] at hone
          have he1 : enabledPairs r.1 = [] := congrArg Prod.fst hone
          have ht1 : r.2 = tid := congrArg Prod.snd hone
          rw [ht1] at h2
          have hrest := applyFrom_texspec rest tid r2.1 r2.2 h2
          have htex : texsOf (nv :: rest) = texsOf rest := by
            simp [texsOf, List.filterMap_cons, hres]
          constructor
          · rw [← htr1, enabledPairs_append, he1, hrest.1, htex]
            rfl
          · rw [← htr2, hrest.2, htex]

/-- Dispatching a resolved producer value is the same as dispatching the
producer itself. -/
theorem applyOne_resolve (name : String) :
    ∀ (v : PyValue) (tid : Nat), applyOne name (resolveValue v) tid = applyOne name v tid
  | .pyCallable r, tid => by
    have h1 : resolveValue (.pyCallable r) = resolveValue r := rfl
    have h2 : applyOne name (.pyCallable r) tid = applyOne name r tid := rfl
    rw [h1, h2]
    exact applyOne_resolve name r tid
  | .pyInt n, tid => rfl
  | .pyFloat f, tid => rfl
  | .pyStr nm, tid => rfl
  | .pyList xs, tid => rfl
  | .pyTexture t, tid => rfl
  | .pyNone, tid => rfl

/-- Applying a table with all producers resolved is the same as applying
the original table. -/
theorem applyFrom_resolve :
    ∀ (us : List (String × PyValue)) (tid : Nat),
      applyUniformsFrom tid (us.map fun nv => (nv.1, resolveValue nv.2)) =
        applyUniformsFrom tid us
  | [], tid => rfl
  | nv :: rest, tid => by
    rw [List.map_cons, applyUniformsFrom, applyUniformsFrom, applyOne_resolve]
    cases h1 : applyOne nv.1 nv.2 tid with
    | error e => rfl
    | ok r =>
      simp only [except_bind_ok]
      rw [applyFrom_resolve rest]

/-- The disable pass emits one disable event exactly for a value that
resolves to a texture. -/
theorem disableOne_texspec :
    ∀ v : PyValue, disableOne v = (match resolveTex v with
      | some t => [GlEvent.disableTex t]
      | none => [])
  | .pyCallable r => by
    have h1 : disableOne (.pyCallable r) = disableOne r := rfl
    have h2 : resolveTex (.pyCallable r) = resolveTex r := rfl
    rw [h1, h2]
    exact disableOne_texspec r
  | .pyInt n => rfl
  | .pyFloat f => rfl
  | .pyStr nm => rfl
  | .pyList xs => rfl
  | .pyTexture t => rfl
  | .pyNone => rfl

/-- The disable pass disables exactly the textures the table resolves
to, in table order. -/
theorem disableUT_texspec :
    ∀ us : List (String × PyValue),
      disabledTexs (disableUniformTextures us) = texsOf us
  | [] => rfl
  | nv :: rest => by
    rw [disableUniformTextures, disabledTexs_append, disableOne_texspec nv.2,
      disableUT_texspec rest]
    cases hres : resolveTex nv.2 with
    | some t => simp [texsOf, List.filterMap_cons, hres, disabledTexs]
    | none => simp [texsOf, List.filterMap_cons, hres, disabledTexs]

/-- C9: when `_ApplyUniforms` succeeds it enables the texture-like
uniform values (producers resolved by recursive invocation) at ascending
texture units starting from 1 in table order; applying the table with
producers pre-resolved gives the same result; and
`_DisableUniformTextures` disables exactly the textures the same table
resolves to, i.e. every texture the last apply pass enabled. -/
theorem C9_texture_units_and_release (us : List (String × PyValue))
    (tr : List GlEvent) (tid2 : Nat) (h : applyUniforms us = .ok (tr, tid2)) :
    enabledPairs tr = (texsOf us).zip (List.range' 1 (texsOf us).length) ∧
    disabledTexs (disableUniformTextures us) = texsOf us ∧
    applyUniforms (us.map fun nv => (nv.1, resolveValue nv.2)) = applyUniforms us := by
  refine ⟨(applyFrom_texspec us 1 tr tid2 h).1, disableUT_texspec us, ?_⟩
  unfold applyUniforms
  exact applyFrom_resolve us 1

/-- Witness for C9 at a concrete uniform table with two texture-like
values (one behind a double producer) and a scalar. -/
theorem C9_texture_units_and_release_witness :
    enabledPairs [GlEvent.enableTex 7 1, GlEvent.seti "a" [.pyInt 1],
        GlEvent.enableTex 9 2, GlEvent.seti "b" [.pyInt 2],
        GlEvent.seti "c" [.pyInt 3]] =
      (texsOf [("a", PyValue.pyTexture 7),
        ("b", PyValue.pyCallable (.pyCallable (.pyTexture 9))),
        ("c", PyValue.pyInt 3)]).zip
        (List.range' 1 (texsOf [("a", PyValue.pyTexture 7),
          ("b", PyValue.pyCallable (.pyCallable (.pyTexture 9))),
          ("c", PyValue.pyInt 3)]).length) ∧
    disabledTexs (disableUniformTextures [("a", PyValue.pyTexture 7),
        ("b", PyValue.pyCallable (.pyCallable (.pyTexture 9))),
        ("c", PyValue.pyInt 3)]) =
      texsOf [("a", PyValue.pyTexture 7),
        ("b", PyValue.pyCallable (.pyCallable (.pyTexture 9))),
        ("c", PyValue.pyInt 3)] ∧
    applyUniforms ([("a", PyValue.pyTexture 7),
        ("b", PyValue.pyCallable (.pyCallable (.pyTexture 9))),
        ("c", PyValue.pyInt 3)].map fun nv => (nv.1, resolveValue nv.2)) =
      applyUniforms [("a", PyValue.pyTexture 7),
        ("b", PyValue.pyCallable (.pyCallable (.pyTexture 9))),
        ("c", PyValue.pyInt 3)] :=
  C9_texture_units_and_release
    [("a", PyValue.pyTexture 7),
     ("b", PyValue.pyCallable (.pyCallable (.pyTexture 9))),
     ("c", PyValue.pyInt 3)]
    [GlEvent.enableTex 7 1, GlEvent.seti "a" [.pyInt 1],
     GlEvent.enableTex 9 2, GlEvent.seti "b" [.pyInt 2],
     GlEvent.seti "c" [.pyInt 3]] 3 (by decide)

/-- A separator with no occurrence splits into a single piece. -/
theorem pySplit_no_occ (s sep : Str) (h : firstOcc s sep = none) :
    pySplit s sep = [s] := by
  simp [pySplit, pySplitFuel, h]

/-- A section whose needle does not occur in the matching text is
skipped silently, leaving buffer and matching text untouched. -/
theorem doSection_skip (pn : String) (st : List BufLine × Str) (sb : Str × Str)
    (h : occursIn sb.1 st.2 = false) : doSection pn st sb = .ok st := by
  cases hfo : firstOcc st.2 sb.1 with
  | some i =>
    exfalso
    rw [occursIn, hfo] at h
    simp at h
  | none =>
    have h1 : sb.1 ≠ [] := by
      intro he
      rw [occursIn, he] at h
      simp at h
    simp [doSection, h1, pySplit_no_occ _ _ hfo]

/-- A whole run of sections none of whose needles occurs is a no-op. -/
theorem sectionsFold_skip (pn : String) :
    ∀ (L : List (Str × Str)) (st : List BufLine × Str),
      (∀ sb ∈ L, occursIn sb.1 st.2 = false) →
      L.foldlM (doSection pn) st = .ok st
  | [], st, _ => rfl
  | sb :: L, st, h => by
    rw [List.foldlM_cons, doSection_skip pn st sb (h sb (by simp)), except_bind_ok]
    exact sectionsFold_skip pn L st (fun x hx => h x (by simp [hx]))

/-- Adding a part none of whose needles occurs in the matching text of a
nonempty buffer is a no-op on the compile state. -/
theorem compileStep_skip (p : ShaderCodePart) (st : List BufLine × Str)
    (hne : st.1 ≠ []) (h : ∀ n ∈ (CollectSections p).1, occursIn n st.2 = false) :
    compileStep st p = .ok st := by
  rw [compileStep, if_neg hne]
  refine sectionsFold_skip p.name _ st (fun sb hsb => ?_)
  obtain ⟨a, b⟩ := sb
  exact h a (List.of_mem_zip hsb).1

/-- Inside `_Compile`, a successful section step leaves the matching
text equal to the dedented buffer. -/
theorem doSection_dedent (pn : String) (st : List BufLine × Str) (sb : Str × Str)
    (st2 : List BufLine × Str) (hP : st.2 = dedentCode st.1)
    (h : doSection pn st sb = .ok st2) : st2.2 = dedentCode st2.1 := by
  unfold doSection at h
  by_cases h1 : sb.1 = []
  · rw [if_pos h1] at h
    simp at h
  · rw [if_neg h1] at h
    by_cases h2 : (pySplit st.2 sb.1).length = 1
    · rw [if_pos h2] at h
      injection h with h
      rw [← h]
      exact hP
    · rw [if_neg h2] at h
      cases h3 : (List.range ((pySplit st.2 sb.1).length - 1)).foldlM
          (occStep pn sb.1 sb.2 (pySplit st.2 sb.1)) st.1 with
      | error e =>
        rw [h3] at h
        simp [except_bind_err] at h
      | ok tl =>
        rw [h3] at h
        simp only [except_bind_ok] at h
        injection h with h
        rw [← h]

/-- The matching-text invariant is preserved by a run of sections. -/
theorem sectionsFold_dedent (pn : String) :
    ∀ (L : List (Str × Str)) (st st2 : List BufLine × Str),
      st.2 = dedentCode st.1 → L.foldlM (doSection pn) st = .ok st2 →
      st2.2 = dedentCode st2.1
  | [], st, st2, hP, h => by
    injection h with h
    rw [← h]
    exact hP
  | sb :: L, st, st2, hP, h => by
    rw [List.foldlM_cons] at h
    cases hd : doSection pn st sb with
    | error e =>
      rw [hd] at h
      simp [except_bind_err] at h
    | ok st1 =>
      rw [hd] at h
      simp only [except_bind_ok] at h
      exact sectionsFold_dedent pn L st1 st2 (doSection_dedent pn st sb st1 hP hd) h

/-- The matching-text invariant is preserved by a whole part. -/
theorem compileStep_dedent (st st2 : List BufLine × Str) (p : ShaderCodePart)
    (hP : st.2 = dedentCode st.1) (h : compileStep st p = .ok st2) :
    st2.2 = dedentCode st2.1 := by
  unfold compileStep at h
  by_cases hne : st.1 = []
  · rw [if_pos hne] at h
    injection h with h
    rw [← h]
  · rw [if_neg hne] at h
    exact sectionsFold_dedent p.name _ st st2 hP h

/-- After compiling any part list, the running matching text is the
dedented buffer. -/
theorem compilePairFold_dedent :
    ∀ (ps : List ShaderCodePart) (st st2 : List BufLine × Str),
      st.2 = dedentCode st.1 → ps.foldlM compileStep st = .ok st2 →
      st2.2 = dedentCode st2.1
  | [], st, st2, hP, h => by
    injection h with h
    rw [← h]
    exact hP
  | p :: ps, st, st2, hP, h => by
    rw [List.foldlM_cons] at h
    cases hd : compileStep st p with
    | error e =>
      rw [hd] at h
      simp [except_bind_err] at h
    | ok st1 =>
      rw [hd] at h
      simp only [except_bind_ok] at h
      exact compilePairFold_dedent ps st1 st2 (compileStep_dedent st st1 p hP hd) h

/-- C4 counterexample: the claim quantifies over every composer, but for
an empty composer a part with no needles at all (so that, vacuously,
none of its needles occurs in the current matching text) is not a no-op:
it becomes the base template and `GetCode()` changes from the empty
string to the part's code. -/
theorem C4_counterexample_empty_composer :
    (CollectSections (ShaderCodePart.make "p" "" (str "x;"))).1 = [] ∧
    addPart ShaderCode.new (ShaderCodePart.make "p" "" (str "x;")) none none =
      .ok { ShaderCode.new with
        parts := [ShaderCodePart.make "p" "" (str "x;")], buffer := none } ∧
    (getCodeE ShaderCode.new).map (·.1) = .ok (str "") ∧
    (getCodeE { ShaderCode.new with
        parts := [ShaderCodePart.make "p" "" (str "x;")], buffer := none }).map (·.1) =
      .ok (str "x;") ∧
    str "" ≠ str "x;" := by
  refine ⟨by decide, by decide, by decide, by decide, by decide⟩

/-- C4 (amended): for every composer whose compiled buffer is nonempty
and every part none of whose needles occurs in the current matching
text, the add succeeds, and `GetCode()` after the add is byte-identical
to `GetCode()` before it — the missing needles are skipped silently and
never raise. -/
theorem C4_noop_on_missing_needles (s : ShaderCode) (p : ShaderCodePart)
    (buf : List BufLine)
    (hc : compileParts s.parts = .ok buf)
    (hb : s.buffer = none ∨ s.buffer = some buf)
    (hne : buf ≠ [])
    (hname : p.name ∉ partNames s)
    (hmiss : ∀ n ∈ (CollectSections p).1, occursIn n (dedentCode buf) = false) :
    addPart s p none none =
      .ok { s with parts := s.parts ++ [p], buffer := none } ∧
    (getCodeE s).map (·.1) = .ok (joinLines (buf.map (·.1))) ∧
    (getCodeE { s with parts := s.parts ++ [p], buffer := none }).map (·.1) =
      .ok (joinLines (buf.map (·.1))) := by
  have hadd : addPart s p none none =
      .ok { s with parts := s.parts ++ [p], buffer := none } := by
    simp [addPart, hname, truthyOpt]
  have hcp : ∃ tc, compilePair s.parts = .ok (buf, tc) := by
    unfold compileParts at hc
    cases hcp : compilePair s.parts with
    | error e =>
      rw [hcp] at hc
      simp [Except.map] at hc
    | ok st =>
      rw [hcp] at hc
      simp only [Except.map, Except.ok.injEq] at hc
      exact ⟨st.2, by rw [← hc]⟩
  obtain ⟨tc, hcp⟩ := hcp
  have htc : tc = dedentCode buf := by
    have := compilePairFold_dedent s.parts ([], []) (buf, tc) (by decide) hcp
    exact this
  have hstep : compileStep (buf, tc) p = .ok (buf, tc) := by
    refine compileStep_skip p (buf, tc) hne ?_
    rw [show ((buf, tc) : List BufLine × Str).2 = tc from rfl, htc]
    exact hmiss
  have hcp2 : compilePair (s.parts ++ [p]) = .ok (buf, tc) := by
    unfold compilePair at hcp ⊢
    rw [List.foldlM_append, hcp, except_bind_ok, List.foldlM_cons, hstep, except_bind_ok]
    rfl
  have hc2 : compileParts (s.parts ++ [p]) = .ok buf := by
    unfold compileParts
    rw [hcp2]
    rfl
  refine ⟨hadd, ?_, ?_⟩
  · cases hb with
    | inl h0 => simp [getCodeE, h0, hc, Except.map]
    | inr h0 => simp [getCodeE, h0, Except.map]
  · simp [getCodeE, hc2, Except.map]

/-- Witness for C4 (amended): adding the sectionless part `b` to a
composer holding only part `a` leaves `GetCode()` at `x;`. -/
theorem C4_noop_on_missing_needles_witness :
    addPart fixtureOneA fixturePartB none none =
      .ok { fixtureOneA with parts := fixtureOneA.parts ++ [fixturePartB], buffer := none } ∧
    (getCodeE fixtureOneA).map (·.1) = .ok (joinLines ([(str "x;", "a")].map (·.1))) ∧
    (getCodeE { fixtureOneA with parts := fixtureOneA.parts ++ [fixturePartB], buffer := none }).map (·.1) =
      .ok (joinLines ([(str "x;", "a")].map (·.1))) :=
  C4_noop_on_missing_needles fixtureOneA fixturePartB [(str "x;", "a")]
    (by decide) (Or.inl rfl) (by decide) (by decide) (by decide)

/-- `csLineStep` on a marker line directly following another marker
line extends the needle and raw text being built. -/
theorem csLineStep_marker_consec (s r : Str) (srest rrest : List Str) (line : Str)
    (n last : Int) (hm : pyStartsWith line marker = true) (hc : last = n) :
    csLineStep (s :: srest, r :: rrest, n, last) line =
      ((s ++ '\n' :: lstrip (line.drop 2)) :: srest,
       (r ++ '\n' :: line) :: rrest, n + 1, n + 1) := by
  simp [csLineStep, hm, hc]

/-- `csLineStep` on a marker line not following a marker line starts a
new needle. -/
theorem csLineStep_marker_new (secs raws : List Str) (line : Str) (n last : Int)
    (hm : pyStartsWith line marker = true) (hc : ¬last = n) :
    csLineStep (secs, raws, n, last) line =
      (lstrip (line.drop 2) :: secs, line :: raws, n + 1, n + 1) := by
  have hc2 : ¬(n + 1 = last + 1) := by omega
  simp [csLineStep, hm, hc2]

/-- `csLineStep` on a non-marker line only advances the line number. -/
theorem csLineStep_other (secs raws : List Str) (line : Str) (n last : Int)
    (hm : pyStartsWith line marker = false) :
    csLineStep (secs, raws, n, last) line = (secs, raws, n + 1, last) := by
  simp [csLineStep, hm]

/-- The line-number bookkeeping of the needle scan (`linenr`,
`lastLinenr`, initial `-10`) implements exactly the grouping of maximal
runs of marker lines done by `needleStep` with a previous-line flag. -/
theorem csFold_needles :
    ∀ (ls : List Str) (groups : List (Str × Str)) (prevM : Bool) (n last : Int),
      last ≤ n → ((last = n) ↔ prevM = true) → (prevM = true → groups ≠ []) →
      (ls.foldl csLineStep (groups.map (·.1), groups.map (·.2), n, last)).1 =
          ((ls.foldl needleStep (groups, prevM)).1.map (·.1)) ∧
      (ls.foldl csLineStep (groups.map (·.1), groups.map (·.2), n, last)).2.1 =
          ((ls.foldl needleStep (groups, prevM)).1.map (·.2))
  | [], groups, prevM, n, last, hle, hiff, hgne => ⟨rfl, rfl⟩
  | line :: ls, groups, prevM, n, last, hle, hiff, hgne => by
    rw [List.foldl_cons, List.foldl_cons]
    cases hm : pyStartsWith line marker with
    | true =>
      cases hp : prevM with
      | true =>
        have hlast : last = n := hiff.mpr hp
        obtain ⟨g, gs, rfl⟩ : ∃ g gs, groups = g :: gs := by
          cases groups with
          | nil => exact absurd rfl (hgne hp)
          | cons g gs => exact ⟨g, gs, rfl⟩
        rw [List.map_cons, List.map_cons,
          csLineStep_marker_consec g.1 g.2 (gs.map (·.1)) (gs.map (·.2)) line n last hm hlast]
        have hstep2 : needleStep (g :: gs, true) line =
            ((g.1 ++ '\n' :: lstrip (line.drop 2), g.2 ++ '\n' :: line) :: gs, true) := by
          simp [needleStep, hm]
        rw [hstep2]
        exact csFold_needles ls
          ((g.1 ++ '\n' :: lstrip (line.drop 2), g.2 ++ '\n' :: line) :: gs) true
          (n + 1) (n + 1) le_rfl (by simp) (by simp)
      | false =>
        have hlast : ¬last = n := fun h0 => by
          rw [hiff.mp h0] at hp
          exact Bool.noConfusion hp
        rw [csLineStep_marker_new (groups.map (·.1)) (groups.map (·.2)) line n last hm hlast]
        have hstep2 : needleStep (groups, false) line =
            ((lstrip (line.drop 2), line) :: groups, true) := by
          simp [needleStep, hm]
        rw [hstep2]
        exact csFold_needles ls ((lstrip (line.drop 2), line) :: groups) true
          (n + 1) (n + 1) le_rfl (by simp) (by simp)
    | false =>
      rw [csLineStep_other (groups.map (·.1)) (groups.map (·.2)) line n last hm]
      have hstep2 : needleStep (groups, prevM) line = (groups, false) := by
        simp [needleStep, hm]
      rw [hstep2]
      exact csFold_needles ls groups false (n + 1) last (by omega)
        (iff_of_false (by omega) (by simp)) (by simp)

/-- The imperative body collection (`codes.append` then a final append
and `pop(0)`) computes the partition gaps. -/
theorem collectCodesFold_gaps :
    ∀ (raws : List Str) (c : Str) (acc : List Str),
      (raws.foldl collectCodesStep (acc, c)).1 ++
          [(raws.foldl collectCodesStep (acc, c)).2] =
        acc ++ gapsFrom c raws
  | [], c, acc => by simp [gapsFrom]
  | r :: raws, c, acc => by
    rw [List.foldl_cons,
      show collectCodesStep (acc, c) r =
        (acc ++ [(pyPartition c r).1], (pyPartition c r).2.2) from rfl,
      collectCodesFold_gaps raws (pyPartition c r).2.2 (acc ++ [(pyPartition c r).1]),
      gapsFrom]
    simp

/-- `collectCodes` drops the text before the first needle and keeps the
partition gaps. -/
theorem collectCodes_eq_gaps (c : Str) (raws : List Str) :
    collectCodes c raws = (gapsFrom c raws).drop 1 := by
  show ((raws.foldl collectCodesStep ([], c)).1 ++
      [(raws.foldl collectCodesStep ([], c)).2]).drop 1 = (gapsFrom c raws).drop 1
  rw [collectCodesFold_gaps raws c []]
  rfl

/-- The collected bodies are exactly the cleaned partition gaps. -/
theorem collectCodes_map_clean (c : Str) (raws : List Str) :
    (collectCodes c raws).map cleanBody = bodiesByPartition c raws := by
  rw [collectCodes_eq_gaps]
  cases raws with
  | nil => rfl
  | cons r rs =>
    rw [gapsFrom]
    rfl

/-- C2 counterexample: the claim describes the bodies as being read off
the same line scan that builds the needles, trimmed of exactly one
leading newline.  The code instead locates each body with a string
`partition` on the raw needle text, which can match a spurious earlier
substring: in `x>>ny\n>>n\nb` the raw needle line `>>n` first occurs
inside the first line, so the returned body is `\n>>n\nb\n` (it even
contains the needle line) instead of the line-scan body `b\n`. -/
theorem C2_counterexample_partition_mismatch :
    CollectSections (ShaderCodePart.make "c" "" (str "x>>ny\n>>n\nb")) =
      ([str "n"], [str "\n>>n\nb\n"]) ∧
    collectSectionsSpec (ShaderCodePart.make "c" "" (str "x>>ny\n>>n\nb")) =
      ([str "n"], [str "b\n"]) ∧
    CollectSections (ShaderCodePart.make "c" "" (str "x>>ny\n>>n\nb")) ≠
      collectSectionsSpec (ShaderCodePart.make "c" "" (str "x>>ny\n>>n\nb")) := by
  refine ⟨by decide, by decide, by decide⟩

/-- C2 (amended): for every part, `CollectSections` builds the needles
by the line scan the claim describes — each `>>` line contributes its
remainder (marker stripped, left-trimmed), consecutive marker lines
concatenating into one newline-joined needle — but the bodies are
obtained by successively splitting the source at the *first occurrence*
of each raw needle text (the marker lines themselves only when no
earlier substring matches), each gap being trimmed of its first
character and of trailing whitespace with a single newline appended. -/
theorem C2_collectSections_characterization (p : ShaderCodePart) :
    CollectSections p =
      ((needleGroups p.code).map (·.1),
        bodiesByPartition p.code ((needleGroups p.code).map (·.2))) := by
  have h := csFold_needles (splitLines p.code) [] false 0 (-10)
    (by omega) (iff_of_false (by omega) (by simp)) (by simp)
  simp only [List.map_nil] at h
  obtain ⟨h1, h2⟩ := h
  show ((List.foldl csLineStep ([], [], 0, -10) (splitLines p.code)).1.reverse,
      (collectCodes p.code
        ((List.foldl csLineStep ([], [], 0, -10) (splitLines p.code)).2.1.reverse)).map
        cleanBody) =
    ((needleGroups p.code).map (·.1),
      bodiesByPartition p.code ((needleGroups p.code).map (·.2)))
  rw [h1, h2, ← List.map_reverse, ← List.map_reverse, collectCodes_map_clean]
  rfl

/-- The first element surviving `dropWhile` fails the predicate. -/
theorem dropWhile_head_false {α : Type} (p : α → Bool) :
    ∀ (l : List α) (c : α) (t : List α),
      l.dropWhile p = c :: t → p c = false
  | [], c, t, h => by simp at h
  | a :: l, c, t, h => by
    rw [List.dropWhile_cons] at h
    by_cases hp : p a
    · rw [if_pos hp] at h
      exact dropWhile_head_false p l c t h
    · rw [if_neg hp] at h
      injection h with h1 h2
      rw [← h1]
      exact Bool.of_not_eq_true hp

/-- `rstrip` output is empty or ends in a non-whitespace character. -/
theorem rstrip_last_not_space (s : Str) :
    rstrip s = [] ∨ ∃ c, (rstrip s).getLast? = some c ∧ isSpaceChar c = false := by
  rw [rstrip]
  cases h : s.reverse.dropWhile isSpaceChar with
  | nil => exact Or.inl rfl
  | cons c t =>
    refine Or.inr ⟨c, ?_, dropWhile_head_false isSpaceChar s.reverse c t h⟩
    rw [List.getLast?_reverse]
    rfl

/-- A string ending in a non-whitespace character is unchanged by
`rstrip`. -/
theorem rstrip_eq_self (s : Str) (c : Char) (h : s.getLast? = some c)
    (hc : isSpaceChar c = false) : rstrip s = s := by
  have h1 : s.reverse.head? = some c := by rw [List.head?_reverse, h]
  rw [rstrip]
  cases hr : s.reverse with
  | nil => rw [hr] at h1; cases h1
  | cons a t =>
    rw [hr] at h1
    injection h1 with h1
    subst h1
    rw [List.dropWhile_cons, if_neg (by rw [hc]; exact Bool.false_ne_true), ← hr,
      List.reverse_reverse]

/-- `getLast?` of a cons with a nonempty tail. -/
theorem getLast?_cons_ne_nil {α : Type} (a : α) (l : List α) (h : l ≠ []) :
    (a :: l).getLast? = l.getLast? := by
  cases l with
  | nil => exact absurd rfl h
  | cons b t => exact List.getLast?_cons_cons

/-- A nonempty `dropWhile` keeps the last element. -/
theorem getLast?_dropWhile_ne_nil {α : Type} (p : α → Bool) :
    ∀ l : List α, l.dropWhile p ≠ [] → (l.dropWhile p).getLast? = l.getLast?
  | [], h => absurd rfl h
  | a :: l, h => by
    rw [List.dropWhile_cons] at h ⊢
    by_cases hp : p a
    · rw [if_pos hp] at h ⊢
      have hl : l ≠ [] := by
        rintro rfl
        simp at h
      rw [getLast?_dropWhile_ne_nil p l h, getLast?_cons_ne_nil a l hl]
    · rw [if_neg hp] at h ⊢

/-- Dropping fewer characters than the length keeps the last one. -/
theorem getLast?_drop_lt {α : Type} (l : List α) (k : Nat) (h : k < l.length) :
    (l.drop k).getLast? = l.getLast? := by
  have h2 : l.drop k ≠ [] := by
    intro he
    have := List.length_drop k l
    rw [he] at this
    simp at this
    omega
  conv_rhs => rw [← List.take_append_drop k l]
  rw [List.getLast?_append_of_ne_nil _ h2]

/-- `joinLines` of a single line. -/
theorem joinLines_single (l : Str) : joinLines [l] = l := by
  simp [joinLines, List.intercalate]

/-- `joinLines` peels off the first of at least two lines. -/
theorem joinLines_cons_cons (a b : Str) (L : List Str) :
    joinLines (a :: b :: L) = a ++ '\n' :: joinLines (b :: L) := by
  simp [joinLines, List.intercalate, List.intersperse_cons_cons]

/-- `joinLines` onto a final extra line. -/
theorem joinLines_concat :
    ∀ (L : List Str) (l : Str), L ≠ [] →
      joinLines (L ++ [l]) = joinLines L ++ '\n' :: l
  | [], l, h => absurd rfl h
  | [a], l, _ => by
    rw [show ([a] ++ [l] : List Str) = a :: [l] from rfl, joinLines_cons_cons,
      joinLines_single, joinLines_single]
  | a :: b :: t, l, _ => by
    rw [show ((a :: b :: t) ++ [l] : List Str) = a :: b :: (t ++ [l]) from rfl,
      joinLines_cons_cons, show (b :: (t ++ [l]) : List Str) = (b :: t) ++ [l] from rfl,
      joinLines_concat (b :: t) l (by simp), joinLines_cons_cons]
    simp

/-- The last character of a newline join is the last character of a
nonempty last line. -/
theorem getLast?_joinLines (L : List Str) (l : Str) (hL : L.getLast? = some l)
    (hl : l ≠ []) : (joinLines L).getLast? = l.getLast? := by
  rcases List.eq_nil_or_concat L with rfl | ⟨M, b, rfl⟩
  · cases hL
  · rw [List.concat_eq_append] at hL ⊢
    have hb : b = l := by
      rw [List.getLast?_append_of_ne_nil M (by simp)] at hL
      injection hL
    subst hb
    cases M with
    | nil => rw [List.nil_append, joinLines_single]
    | cons m t =>
      rw [joinLines_concat (m :: t) b (by simp),
        List.getLast?_append_of_ne_nil _ (by simp), getLast?_cons_ne_nil _ _ hl]

/-- If a newline join ends in a character other than `'\n'`, the last
line is nonempty and ends in that character. -/
theorem getLast?_joinLines_rev (L : List Str) (c : Char) (hne : L ≠ [])
    (h : (joinLines L).getLast? = some c) (hc : c ≠ '\n') :
    ∃ l, L.getLast? = some l ∧ l ≠ [] ∧ l.getLast? = some c := by
  rcases List.eq_nil_or_concat L with rfl | ⟨M, b, rfl⟩
  · exact absurd rfl hne
  · rw [List.concat_eq_append] at h ⊢
    have hlast : (M ++ [b]).getLast? = some b :=
      by rw [List.getLast?_append_of_ne_nil M (by simp)]; rfl
    have hbne : b ≠ [] := by
      rintro rfl
      cases M with
      | nil =>
        rw [List.nil_append, joinLines_single] at h
        cases h
      | cons m t =>
        rw [joinLines_concat (m :: t) [] (by simp),
          List.getLast?_append_of_ne_nil _ (by simp)] at h
        injection h with h
        exact hc h.symm
    refine ⟨b, hlast, hbne, ?_⟩
    cases M with
    | nil =>
      rw [List.nil_append, joinLines_single] at h
      exact h
    | cons m t =>
      rw [joinLines_concat (m :: t) b (by simp),
        List.getLast?_append_of_ne_nil _ (by simp),
        getLast?_cons_ne_nil _ _ hbne] at h
      exact h

/-- `splitlines` of a string not ending in a newline is a plain split. -/
theorem splitLines_of_last_ne (s : Str) (hne : s ≠ [])
    (h : ¬s.getLast? = some '\n') : splitLines s = s.splitOn '\n' := by
  rw [splitLines, if_neg hne, if_neg h]

/-- Joining the lines of `splitlines` recovers the string up to one
trailing newline. -/
theorem joinLines_splitLines (s : Str) : joinLines (splitLines s) = dropTrailNL s := by
  by_cases hnil : s = []
  · subst hnil
    rfl
  · by_cases hlast : s.getLast? = some '\n'
    · rw [splitLines, if_neg hnil, if_pos hlast, dropTrailNL, if_pos hlast]
      exact List.intercalate_splitOn _ '\n'
    · rw [splitLines, if_neg hnil, if_neg hlast, dropTrailNL, if_neg hlast]
      exact List.intercalate_splitOn _ '\n'

/-- Once a real line has been encountered, the `_stripCode` scan keeps
every following line. -/
theorem stripFold_keep_all :
    ∀ (L : List Str) (acc : List Str) (mi : Nat),
      (L.foldl stripStep (acc, mi, true)).1 = acc ++ L
  | [], acc, mi => by simp
  | line :: L, acc, mi => by
    rw [List.foldl_cons]
    by_cases hb : rstrip (lstrip line) = []
    · rw [show stripStep (acc, mi, true) line = (acc ++ [line], mi, true) by
        simp [stripStep, hb]]
      rw [stripFold_keep_all L (acc ++ [line]) mi]
      simp
    · rw [show stripStep (acc, mi, true) line =
          (acc ++ [line], min mi (line.length - (lstrip line).length), true) by
        simp [stripStep, hb]]
      rw [stripFold_keep_all L (acc ++ [line]) _]
      simp

/-- Before any real line, the `_stripCode` scan drops exactly the
leading blank lines. -/
theorem stripFold_dropWhile :
    ∀ (L : List Str) (mi : Nat),
      (L.foldl stripStep ([], mi, false)).1 = L.dropWhile blankLine
  | [], mi => rfl
  | line :: L, mi => by
    rw [List.foldl_cons, List.dropWhile_cons]
    by_cases hb : rstrip (lstrip line) = []
    · rw [show stripStep ([], mi, false) line = ([], mi, false) by simp [stripStep, hb]]
      rw [if_pos (by simp [blankLine, hb])]
      exact stripFold_dropWhile L mi
    · rw [show stripStep ([], mi, false) line =
          ([line], min mi (line.length - (lstrip line).length), true) by
        simp [stripStep, hb]]
      rw [if_neg (by simp [blankLine, hb])]
      rw [stripFold_keep_all L [line] _]
      rfl

/-- The minimum-indentation accumulator never increases. -/
theorem stripFold_min_le :
    ∀ (L : List Str) (acc : List Str) (mi : Nat) (enc : Bool),
      (L.foldl stripStep (acc, mi, enc)).2.1 ≤ mi
  | [], acc, mi, enc => le_rfl
  | line :: L, acc, mi, enc => by
    rw [List.foldl_cons]
    by_cases hb : rstrip (lstrip line) = []
    · rw [show stripStep (acc, mi, enc) line =
          (if enc = true ∨ ¬rstrip (lstrip line) = [] then acc ++ [line] else acc,
            mi, enc) by simp [stripStep, hb]]
      exact stripFold_min_le L _ mi enc
    · rw [show stripStep (acc, mi, enc) line =
          (if enc = true ∨ ¬rstrip (lstrip line) = [] then acc ++ [line] else acc,
            min mi (line.length - (lstrip line).length), true) by simp [stripStep, hb]]
      exact le_trans (stripFold_min_le L _ _ true) (min_le_left _ _)

/-- The final minimum indentation is at most the indentation of every
non-blank line of the scan. -/
theorem stripFold_min_le_indent :
    ∀ (L : List Str) (acc : List Str) (mi : Nat) (enc : Bool) (l : Str),
      l ∈ L → blankLine l = false →
      (L.foldl stripStep (acc, mi, enc)).2.1 ≤ indentOf l
  | [], acc, mi, enc, l, hmem, _ => absurd hmem (by simp)
  | line :: L, acc, mi, enc, l, hmem, hreal => by
    rw [List.foldl_cons]
    rcases List.mem_cons.mp hmem with rfl | hmem2
    · have hb : ¬rstrip (lstrip l) = [] := by
        simpa [blankLine] using hreal
      rw [show stripStep (acc, mi, enc) l =
          (if enc = true ∨ ¬rstrip (lstrip l) = [] then acc ++ [l] else acc,
            min mi (l.length - (lstrip l).length), true) by simp [stripStep, hb]]
      exact le_trans (stripFold_min_le L _ _ true)
        (le_trans (min_le_right _ _) (by rw [indentOf]))
    · by_cases hb : rstrip (lstrip line) = []
      · rw [show stripStep (acc, mi, enc) line =
            (if enc = true ∨ ¬rstrip (lstrip line) = [] then acc ++ [line] else acc,
              mi, enc) by simp [stripStep, hb]]
        exact stripFold_min_le_indent L _ mi enc l hmem2 hreal
      · rw [show stripStep (acc, mi, enc) line =
            (if enc = true ∨ ¬rstrip (lstrip line) = [] then acc ++ [line] else acc,
              min mi (line.length - (lstrip line).length), true) by simp [stripStep, hb]]
        exact stripFold_min_le_indent L _ _ true l hmem2 hreal

/-- Unfolding of `stripCode` into its scan components. -/
theorem stripCode_eq (raw : Str) :
    stripCode raw =
      joinLines ((((splitLines (rstrip raw)).foldl stripStep ([], 99999999, false)).1).map
        (fun l => rstrip
          (l.drop (((splitLines (rstrip raw)).foldl stripStep ([], 99999999, false)).2.1)))) :=
  rfl

/-- The canonical code of a part never ends in a newline: the last
non-blank line survives the scan, the minimum indentation cannot eat its
non-whitespace last character, and right-trimming keeps it. -/
theorem stripCode_last_not_newline (raw : Str) :
    ¬(stripCode raw).getLast? = some '\n' := by
  rcases rstrip_last_not_space raw with hnil | ⟨c, hc, hcns⟩
  · rw [stripCode_eq, hnil]
    intro h
    cases h
  · have hcsne : rstrip raw ≠ [] := by
      intro he
      rw [he] at hc
      cases hc
    have hcnl : c ≠ '\n' := by
      intro he
      rw [he] at hcns
      simp [isSpaceChar] at hcns
    have hsplit : splitLines (rstrip raw) = (rstrip raw).splitOn '\n' :=
      splitLines_of_last_ne _ hcsne (by
        rw [hc]
        intro h
        injection h with h
        exact hcnl h)
    have hLne : (rstrip raw).splitOn '\n' ≠ [] := List.splitOnP_ne_nil _ _
    have hjoin : joinLines ((rstrip raw).splitOn '\n') = rstrip raw :=
      List.intercalate_splitOn _ '\n'
    obtain ⟨lastl, hlastl, hlne, hlc⟩ :=
      getLast?_joinLines_rev ((rstrip raw).splitOn '\n') c hLne (by rw [hjoin]; exact hc) hcnl
    have hls : lstrip lastl ≠ [] := by
      intro he
      have hall := List.dropWhile_eq_nil_iff.mp he
      have hmem : c ∈ lastl := List.mem_of_mem_getLast? (by simp [hlc])
      have := hall c hmem
      rw [hcns] at this
      cases this
    have hlsl : (lstrip lastl).getLast? = some c := by
      rw [lstrip, getLast?_dropWhile_ne_nil isSpaceChar lastl hls]
      exact hlc
    have hreal : blankLine lastl = false := by
      rw [blankLine, rstrip_eq_self (lstrip lastl) c hlsl hcns]
      simp [hls]
    have hmemL : lastl ∈ (rstrip raw).splitOn '\n' :=
      List.mem_of_mem_getLast? (by simp [hlastl])
    have hlines1 : ((((rstrip raw).splitOn '\n').foldl stripStep ([], 99999999, false)).1) =
        ((rstrip raw).splitOn '\n').dropWhile blankLine :=
      stripFold_dropWhile _ 99999999
    have hl1ne : (((rstrip raw).splitOn '\n').dropWhile blankLine) ≠ [] := by
      intro he
      have hall := List.dropWhile_eq_nil_iff.mp he
      have := hall lastl hmemL
      rw [hreal] at this
      cases this
    have hl1last : ((((rstrip raw).splitOn '\n').foldl stripStep ([], 99999999, false)).1).getLast? =
        some lastl := by
      rw [hlines1, getLast?_dropWhile_ne_nil blankLine _ hl1ne]
      exact hlastl
    have hmi : ((((rstrip raw).splitOn '\n').foldl stripStep ([], 99999999, false)).2.1) ≤
        indentOf lastl :=
      stripFold_min_le_indent _ [] 99999999 false lastl hmemL hreal
    have hind : indentOf lastl < lastl.length := by
      rw [indentOf]
      have h1 : (lstrip lastl).length ≤ lastl.length := by
        rw [lstrip]
        exact (List.dropWhile_sublist _).length_le
      have h2 : 0 < (lstrip lastl).length := List.length_pos.mpr hls
      have h3 : 0 < lastl.length := List.length_pos.mpr hlne
      omega
    have hmilen : ((((rstrip raw).splitOn '\n').foldl stripStep ([], 99999999, false)).2.1) <
        lastl.length := lt_of_le_of_lt hmi hind
    have hfl : rstrip (lastl.drop
        ((((rstrip raw).splitOn '\n').foldl stripStep ([], 99999999, false)).2.1)) =
        lastl.drop ((((rstrip raw).splitOn '\n').foldl stripStep ([], 99999999, false)).2.1) :=
      rstrip_eq_self _ c (by rw [getLast?_drop_lt lastl _ hmilen]; exact hlc) hcns
    have hflne : lastl.drop
        ((((rstrip raw).splitOn '\n').foldl stripStep ([], 99999999, false)).2.1) ≠ [] := by
      intro he
      have hlen := List.length_drop
        ((((rstrip raw).splitOn '\n').foldl stripStep ([], 99999999, false)).2.1) lastl
      rw [he] at hlen
      simp at hlen
      omega
    rw [stripCode_eq, hsplit]
    rw [getLast?_joinLines _
      (rstrip (lastl.drop ((((rstrip raw).splitOn '\n').foldl stripStep ([], 99999999, false)).2.1)))
      (by rw [List.getLast?_map, hl1last]; rfl)
      (by rw [hfl]; exact hflne)]
    rw [hfl, getLast?_drop_lt lastl _ hmilen, hlc]
    intro he
    injection he with he
    exact hcnl he

/-- Compiling a single part seeds the buffer verbatim from its
canonical code, each line tagged with the part's name. -/
theorem compileParts_single (name version : String) (raw : Str) :
    compileParts [ShaderCodePart.make name version raw] =
      .ok ((splitLines (stripCode raw)).map (fun l => (l, name))) := by
  have h1 : compileStep ([], []) (ShaderCodePart.make name version raw) =
      .ok ((splitLines (stripCode raw)).map (fun l => (l, name)),
        dedentCode ((splitLines (stripCode raw)).map (fun l => (l, name)))) := rfl
  show (compilePair [ShaderCodePart.make name version raw]).map (·.1) = _
  rw [compilePair, List.foldlM_cons, h1, except_bind_ok]
  rfl

/-- C3: a composer holding exactly one part returns, from `GetCode()`,
precisely that part's canonical source (its lines joined with newline),
whether or not the part's source contains needle lines (the seeding of
the buffer from the first part never scans sections). -/
theorem C3_single_part_identity (name version : String) (raw : Str) :
    (getCodeE (ShaderCode.mk [] [ShaderCodePart.make name version raw] none true)).map (·.1) =
      .ok (ShaderCodePart.make name version raw).code := by
  have hcp := compileParts_single name version raw
  simp only [getCodeE, hcp, Except.map]
  show Except.ok (joinLines (((splitLines (stripCode raw)).map (fun l => (l, name))).map (·.1))) = _
  rw [List.map_map]
  have hmap : ((fun x => x.1) ∘ fun l => (l, name)) = fun l : Str => l := rfl
  rw [hmap, List.map_id', joinLines_splitLines, dropTrailNL,
    if_neg (stripCode_last_not_newline raw)]
  rfl
